import Mathlib

/-!
Verification of the arena allocator (`allocator_pool`) and the two grow-only
sequences (`dynamic_array`, `compressed_dynamic_array`) of the repository.

The C++ code is shallowly embedded for *sequential* executions: every
compare-and-swap succeeds, loops are modelled by fuel-indexed recursion, raw
machine pointers become natural-number addresses, and the host allocator
(`::malloc`) is modelled as a bump allocator over a fresh address space
together with a refusal oracle `fail : Nat → Bool` (call index ↦ whether the
host refuses that chunk request).  All counters are `Nat`; the only places the
C++ code could wrap (`size_t` arithmetic) are guarded by the invariants proved
below, and are noted at the definitions.
-/

namespace Efficient

/-! ### allocator_pool (src/efficient/util/allocator_pool.hpp, src/src/util/allocator_pool.cpp) -/

/-- Value of `sizeof(allocator_pool::chunk)` on an LP64 platform:
`std::atomic<uint8_t*> chunk_at` (8) + `uint8_t *chunk_end` (8) +
`chunk *next_chunk` (8) + `size_t chunk_size` (8); the flexible member
`uint8_t data[]` adds nothing. -/
def header_size : Nat := 32

/-- One `allocator_pool::chunk`.  `base` is the slab address returned by the
host allocator; `chunk_size` is the field of the same name (the whole request,
header included); `chunk_at` is the bump cursor (an address).  The fields
`chunk_end` and the payload start are derived: `base + chunk_size` and
`base + header_size`.  The `next_chunk` pointers are represented by the
position in the chunk list of the pool state. -/
structure Chunk where
  base : Nat
  chunk_size : Nat
  chunk_at : Nat
deriving DecidableEq, Repr

/-- The field `chunk_end = ((uint8_t *)chain) + request`. -/
def Chunk.chunk_end (c : Chunk) : Nat := c.base + c.chunk_size

/-- Start of the payload `data[]`, directly after the header. -/
def Chunk.data_start (c : Chunk) : Nat := c.base + header_size

/-- State of one `allocator_pool` plus the state of the modelled host
allocator: `chunks` is the stack `current_chunk → next_chunk → …` (top
first), `used`/`allocated`/`block_size` are the fields of the same names,
`hostNext` is the next fresh address the host will hand out and `hostIdx`
counts host allocation requests (consulted by the refusal oracle). -/
structure PoolState where
  chunks : List Chunk
  used : Nat
  allocated : Nat
  block_size : Nat
  hostNext : Nat
  hostIdx : Nat
deriving DecidableEq, Repr

/-- A freshly constructed pool: no chunks, zero counters
(`allocator_pool::allocator_pool` runs `rewind()`). -/
def initialPool (block_size_for_allocation hostStart : Nat) : PoolState :=
  ⟨[], 0, 0, block_size_for_allocation, hostStart, 0⟩

/-- Model of `allocator_pool::size()` — returns `used`. -/
def PoolState.size (st : PoolState) : Nat := st.used

/-- Model of `allocator_pool::capacity()` — returns `allocated`. -/
def PoolState.capacity (st : PoolState) : Nat := st.allocated

/-- Model of `allocator_pool::realign`: padding needed to align `address` to
`boundary`. -/
def realign (address boundary : Nat) : Nat :=
  if address % boundary = 0 then 0 else boundary - address % boundary

/-- Model of `allocator_pool::add_chunk` in a sequential execution (the installing
compare-exchange succeeds).  `none` models `alloc` (the host) returning
`nullptr`.  `request = maximum(block_size, bytes) + sizeof(chunk)`;
the new chunk is initialised with `chunk_at = data`, `chunk_end = chain +
request`, `next_chunk = current_chunk`, and on success `allocated += request`. -/
def add_chunk (fail : Nat → Bool) (st : PoolState) (bytes : Nat) :
    Option PoolState :=
  let request := max st.block_size bytes + header_size
  if fail st.hostIdx then
    none
  else
    some { st with
      chunks := ⟨st.hostNext, request, st.hostNext + header_size⟩ :: st.chunks,
      allocated := st.allocated + request,
      hostNext := st.hostNext + request,
      hostIdx := st.hostIdx + 1 }

/-- Outcome of `allocator_pool::malloc`.  `ok st addr` is a normal return of
the address `addr`; `oom` is the out-of-memory branch, which prints a
diagnostic and calls `exit` (the process terminates — no pointer is ever
handed to the caller); `spin` is fuel exhaustion of the model (the retry
loop did not finish within the given fuel). -/
inductive MRes where
  | ok : PoolState → Nat → MRes
  | oom : MRes
  | spin : MRes
deriving DecidableEq, Repr

/-- Model of `allocator_pool::malloc(bytes, alignment)` in a sequential execution: the
do/while retry loop, one fuel unit per iteration.  Sequentially both
compare-exchanges always succeed, so an iteration either returns, adds a
chunk and retries, or dies on out-of-memory. -/
def mallocLoop (fail : Nat → Bool) : Nat → PoolState → Nat → Nat → MRes
  | 0, _, _, _ => .spin
  | fuel + 1, st, bytes, alignment =>
    match st.chunks with
    | [] =>
      -- chunk == nullptr: top_of_stack = nullptr, then straight to add_chunk
      match add_chunk fail st bytes with
      | none => .oom
      | some st1 => mallocLoop fail fuel st1 bytes alignment
    | top :: rest =>
      let top_of_stack := top.chunk_at
      let padding := if alignment ≠ 1 then realign top_of_stack alignment else 0
      if top.chunk_end < top_of_stack + bytes + padding then
        match add_chunk fail st bytes with
        | none => .oom
        | some st1 => mallocLoop fail fuel st1 bytes alignment
      else
        .ok { st with
                chunks := { top with chunk_at := top_of_stack + bytes + padding } :: rest,
                used := st.used + bytes }
          (top_of_stack + padding)

/-- A sequence of sequential `malloc` calls; returns the final pool state and
the list of `(address, bytes)` regions handed out, in call order. -/
def mallocSeq (fail : Nat → Bool) (fuel : Nat) :
    PoolState → List (Nat × Nat) → Option (PoolState × List (Nat × Nat))
  | st, [] => some (st, [])
  | st, (bytes, alignment) :: reqs =>
    match mallocLoop fail fuel st bytes alignment with
    | .ok st1 addr =>
      match mallocSeq fail fuel st1 reqs with
      | some (st2, out) => some (st2, (addr, bytes) :: out)
      | none => none
    | _ => none

/-- Pool invariant: every chunk's cursor sits between its payload start and
its end, every slab lies below the host's bump cursor, and the slabs are
stacked newest-first with pairwise-disjoint address ranges. -/
def PoolWF (st : PoolState) : Prop :=
  (∀ c ∈ st.chunks, c.data_start ≤ c.chunk_at ∧ c.chunk_at ≤ c.chunk_end) ∧
  (∀ c ∈ st.chunks, c.chunk_end ≤ st.hostNext) ∧
  List.Pairwise (fun a b => b.chunk_end ≤ a.base) st.chunks

lemma add_chunk_chunks (fail : Nat → Bool) (st : PoolState) (bytes : Nat)
    (st1 : PoolState) (h : add_chunk fail st bytes = some st1) :
    st1.chunks = ⟨st.hostNext, max st.block_size bytes + header_size,
        st.hostNext + header_size⟩ :: st.chunks ∧
    st1.used = st.used ∧ st1.block_size = st.block_size ∧
    st1.hostNext = st.hostNext + (max st.block_size bytes + header_size) ∧
    fail st.hostIdx = false ∧ st.hostIdx ≤ st1.hostIdx := by
  unfold add_chunk at h
  by_cases hf : fail st.hostIdx = true
  · simp [hf] at h
  · simp only [Bool.not_eq_true] at hf
    simp only [hf, Bool.false_eq_true, if_false, Option.some.injEq] at h
    subst h
    simp [hf]

lemma add_chunk_WF (fail : Nat → Bool) (st : PoolState) (bytes : Nat)
    (st1 : PoolState) (hWF : PoolWF st) (h : add_chunk fail st bytes = some st1) :
    PoolWF st1 := by
  obtain ⟨hc, -, -, hn, -, -⟩ := add_chunk_chunks fail st bytes st1 h
  obtain ⟨h1, h2, h3⟩ := hWF
  refine ⟨?_, ?_, ?_⟩ <;> rw [hc]
  · intro c hmem
    rcases List.mem_cons.mp hmem with rfl | hmem
    · constructor
      · simp [Chunk.data_start]
      · simp only [Chunk.chunk_end]
        omega
    · exact h1 c hmem
  · intro c hmem
    rw [hn]
    rcases List.mem_cons.mp hmem with rfl | hmem
    · simp [Chunk.chunk_end]
    · have := h2 c hmem
      omega
  · refine List.Pairwise.cons ?_ h3
    intro c hmem
    have := h2 c hmem
    simp only [Chunk.chunk_end] at this ⊢
    omega

lemma realign_aligned (address boundary : Nat) (hb : 1 ≤ boundary) :
    (address + realign address boundary) % boundary = 0 := by
  unfold realign
  by_cases h : address % boundary = 0
  · simp [h]
  · simp only [h, if_false]
    have hdm := Nat.div_add_mod address boundary
    have hlt : address % boundary < boundary := Nat.mod_lt _ (by omega)
    have heq : address + (boundary - address % boundary) =
        boundary * (address / boundary + 1) := by
      rw [Nat.mul_add, Nat.mul_one]
      omega
    rw [heq, Nat.mul_mod_right]

/-- Core property of one sequential `malloc` call that returns: the invariant
is preserved, `used` advances by exactly `bytes`, the result is aligned, the
returned region sits under the cursor of one of the (new) chunks, every chunk
of the starting state has its cursor at or below the returned address, and
the starting chunks persist (same slab) with cursors only moving forward. -/
lemma mallocLoop_main (fail : Nat → Bool) :
    ∀ (fuel : Nat) (st : PoolState) (bytes alignment : Nat) (st' : PoolState) (addr : Nat),
    PoolWF st →
    mallocLoop fail fuel st bytes alignment = .ok st' addr →
    PoolWF st' ∧
    st'.used = st.used + bytes ∧
    (1 ≤ alignment → addr % alignment = 0) ∧
    (∃ c ∈ st'.chunks, c.data_start ≤ addr ∧ addr + bytes ≤ c.chunk_at) ∧
    (∀ d ∈ st.chunks, d.chunk_at ≤ addr) ∧
    (∀ d ∈ st.chunks, ∃ d' ∈ st'.chunks,
        d'.base = d.base ∧ d'.chunk_size = d.chunk_size ∧ d.chunk_at ≤ d'.chunk_at) := by
  intro fuel
  induction fuel with
  | zero => intro st bytes alignment st' addr _ h; simp [mallocLoop] at h
  | succ fuel ih =>
    intro st bytes alignment st' addr hWF h
    rw [mallocLoop] at h
    rcases hch : st.chunks with _ | ⟨top, rest⟩
    · rw [hch] at h
      rcases hadd : add_chunk fail st bytes with _ | st1
      · rw [hadd] at h; exact absurd h (by simp)
      · rw [hadd] at h
        obtain ⟨hcs, hus, -, -, -, -⟩ := add_chunk_chunks fail st bytes st1 hadd
        obtain ⟨hWF', hused, halign, hcont, hcur, hper⟩ :=
          ih st1 bytes alignment st' addr (add_chunk_WF fail st bytes st1 hWF hadd) h
        refine ⟨hWF', by omega, halign, hcont, ?_, ?_⟩ <;>
          exact fun d hd => absurd hd (List.not_mem_nil d)
    · rw [hch] at h
      simp only at h
      set top_of_stack := top.chunk_at with htos
      set padding := if alignment ≠ 1 then realign top_of_stack alignment else 0 with hpad
      by_cases hov : top.chunk_end < top_of_stack + bytes + padding
      · rw [if_pos hov] at h
        rcases hadd : add_chunk fail st bytes with _ | st1
        · rw [hadd] at h; exact absurd h (by simp)
        · rw [hadd] at h
          obtain ⟨hcs, hus, -, hnn, -, -⟩ := add_chunk_chunks fail st bytes st1 hadd
          obtain ⟨hWF', hused, halign, hcont, hcur, hper⟩ :=
            ih st1 bytes alignment st' addr (add_chunk_WF fail st bytes st1 hWF hadd) h
          refine ⟨hWF', by omega, halign, hcont, ?_, ?_⟩
          · intro d hd
            apply hcur
            rw [hcs, hch]
            exact List.mem_cons_of_mem _ hd
          · intro d hd
            apply hper
            rw [hcs, hch]
            exact List.mem_cons_of_mem _ hd
      · rw [if_neg hov] at h
        have hok : st' = { st with
              chunks := { top with chunk_at := top_of_stack + bytes + padding } :: rest,
              used := st.used + bytes } ∧ addr = top_of_stack + padding := by
          constructor
          · exact (MRes.ok.injEq _ _ _ _).mp h |>.1.symm
          · exact (MRes.ok.injEq _ _ _ _).mp h |>.2.symm
        obtain ⟨rfl, rfl⟩ := hok
        obtain ⟨h1, h2, h3⟩ := hWF
        have htopmem : top ∈ st.chunks := by rw [hch]; exact List.mem_cons_self _ _
        have htopWF := h1 top htopmem
        refine ⟨⟨?_, ?_, ?_⟩, rfl, ?_, ?_, ?_, ?_⟩
        · intro c hmem
          rcases List.mem_cons.mp hmem with rfl | hmem
          · constructor
            · simp only [Chunk.data_start] at htopWF ⊢
              omega
            · simp only [Chunk.chunk_end] at hov ⊢
              omega
          · exact h1 c (by rw [hch]; exact List.mem_cons_of_mem _ hmem)
        · intro c hmem
          rcases List.mem_cons.mp hmem with rfl | hmem
          · have := h2 top htopmem
            simp only [Chunk.chunk_end] at this ⊢
            omega
          · exact h2 c (by rw [hch]; exact List.mem_cons_of_mem _ hmem)
        · rw [hch] at h3
          rcases List.pairwise_cons.mp h3 with ⟨hrel, hrest⟩
          exact List.pairwise_cons.mpr ⟨fun b hb => hrel b hb, hrest⟩
        · intro hal
          by_cases h1a : alignment = 1
          · rw [h1a]
            exact Nat.mod_one _
          · rw [hpad, if_pos h1a]
            exact realign_aligned top_of_stack alignment hal
        · refine ⟨{ top with chunk_at := top_of_stack + bytes + padding },
            List.mem_cons_self _ _, ?_, ?_⟩
          · simp only [Chunk.data_start] at htopWF ⊢
            omega
          · simp only
            omega
        · intro d hd
          rcases List.mem_cons.mp hd with rfl | hd
          · omega
          · rw [hch] at h3
            rcases List.pairwise_cons.mp h3 with ⟨hrel, -⟩
            have hde := hrel d hd
            have hdWF := h1 d (by rw [hch]; exact List.mem_cons_of_mem _ hd)
            simp only [Chunk.chunk_end, Chunk.data_start] at hde hdWF htopWF
            omega
        · intro d hd
          rcases List.mem_cons.mp hd with rfl | hd
          · exact ⟨{ d with chunk_at := top_of_stack + bytes + padding },
              List.mem_cons_self _ _, rfl, rfl, by simp only; omega⟩
          · exact ⟨d, List.mem_cons_of_mem _ hd, rfl, rfl, le_refl _⟩

/-- Regions (address, length) previously handed out all sit below the cursor
of one of the pool's chunks. -/
def RegionsWF (st : PoolState) (rs : List (Nat × Nat)) : Prop :=
  ∀ r ∈ rs, ∃ c ∈ st.chunks, c.data_start ≤ r.1 ∧ r.1 + r.2 ≤ c.chunk_at

/-- Sequence-level correctness of `mallocSeq`: the invariant persists, `used`
sums the requested byte counts, each returned address obeys its request's
alignment, all handed-out regions (new and old) sit under chunk cursors, the
new regions lie wholly above all old ones, and the new regions are
allocated at strictly increasing offsets (hence pairwise disjoint). -/
lemma mallocSeq_main (fail : Nat → Bool) (fuel : Nat) :
    ∀ (reqs : List (Nat × Nat)) (st : PoolState) (rs : List (Nat × Nat))
      (st'' : PoolState) (out : List (Nat × Nat)),
    PoolWF st → RegionsWF st rs →
    mallocSeq fail fuel st reqs = some (st'', out) →
    PoolWF st'' ∧
    st''.used = st.used + (reqs.map Prod.fst).sum ∧
    (∀ p ∈ out.zip reqs, (1 ≤ p.2.2 → p.1.1 % p.2.2 = 0) ∧ p.1.2 = p.2.1) ∧
    RegionsWF st'' (out ++ rs) ∧
    (∀ a ∈ out, ∀ b ∈ rs, b.1 + b.2 ≤ a.1) ∧
    List.Pairwise (fun a b => a.1 + a.2 ≤ b.1) out := by
  intro reqs
  induction reqs with
  | nil =>
    intro st rs st'' out hWF hrs h
    simp only [mallocSeq, Option.some.injEq, Prod.mk.injEq] at h
    obtain ⟨rfl, rfl⟩ := h
    exact ⟨hWF, by simp, by simp, by simpa using hrs, by simp, List.Pairwise.nil⟩
  | cons req reqs ih =>
    obtain ⟨bytes, alignment⟩ := req
    intro st rs st'' out hWF hrs h
    rw [mallocSeq] at h
    cases hm : mallocLoop fail fuel st bytes alignment with
    | oom => rw [hm] at h; simp at h
    | spin => rw [hm] at h; simp at h
    | ok st1 addr =>
    rw [hm] at h
    have hred : (match mallocSeq fail fuel st1 reqs with
        | some (st2, out2) => some (st2, (addr, bytes) :: out2)
        | none => none) = some (st'', out) := h
    clear h
    rcases hs : mallocSeq fail fuel st1 reqs with _ | ⟨st2, out'⟩
    · rw [hs] at hred; simp at hred
    rw [hs] at hred
    simp only [Option.some.injEq, Prod.mk.injEq] at hred
    obtain ⟨rfl, rfl⟩ := hred
    obtain ⟨hWF1, hused1, halign1, hcont1, hcur1, hper1⟩ :=
      mallocLoop_main fail fuel st bytes alignment st1 addr hWF hm
    have hrs1 : RegionsWF st1 ((addr, bytes) :: rs) := by
      intro r hr
      rcases List.mem_cons.mp hr with rfl | hr
      · exact hcont1
      · obtain ⟨c, hc, hc1, hc2⟩ := hrs r hr
        obtain ⟨c', hc', hb, hsz, hat⟩ := hper1 c hc
        refine ⟨c', hc', ?_, by omega⟩
        simp only [Chunk.data_start] at hc1 ⊢
        omega
    obtain ⟨hWF2, hused2, halign2, hcont2, habove2, hpw2⟩ :=
      ih st1 ((addr, bytes) :: rs) st2 out' hWF1 hrs1 hs
    have hnewold : ∀ b ∈ rs, b.1 + b.2 ≤ addr := by
      intro b hb
      obtain ⟨c, hc, -, hc2⟩ := hrs b hb
      have := hcur1 c hc
      omega
    refine ⟨hWF2, by simp; omega, ?_, ?_, ?_, ?_⟩
    · intro p hp
      rcases List.mem_cons.mp (by simpa [List.zip] using hp) with rfl | hp'
      · exact ⟨halign1, rfl⟩
      · exact halign2 p hp'
    · intro r hr
      apply hcont2
      rcases List.mem_cons.mp hr with rfl | hr
      · exact List.mem_append_right _ (List.mem_cons_self _ _)
      · rcases List.mem_append.mp hr with hr | hr
        · exact List.mem_append_left _ hr
        · exact List.mem_append_right _ (List.mem_cons_of_mem _ hr)
    · intro a ha b hb
      rcases List.mem_cons.mp ha with rfl | ha
      · exact hnewold b hb
      · exact habove2 a ha b (List.mem_cons_of_mem _ hb)
    · refine List.pairwise_cons.mpr ⟨?_, hpw2⟩
      intro a ha
      exact habove2 a ha (addr, bytes) (List.mem_cons_self _ _)

/-- With pairwise-disjoint slabs (the `PoolWF` stacking invariant), at most
one chunk's payload can contain a given region. -/
lemma chunk_unique :
    ∀ (l : List Chunk), List.Pairwise (fun a b => b.chunk_end ≤ a.base) l →
    ∀ x len, ∀ c ∈ l, ∀ c' ∈ l,
    c.data_start ≤ x → x + len ≤ c.chunk_end →
    c'.data_start ≤ x → x + len ≤ c'.chunk_end → c' = c := by
  intro l
  induction l with
  | nil => intro _ x len c hc; exact absurd hc (List.not_mem_nil c)
  | cons d t ih =>
    intro hpw x len c hc c' hc' h1 h2 h3 h4
    rcases List.pairwise_cons.mp hpw with ⟨hrel, hpt⟩
    rcases List.mem_cons.mp hc with hceq | hct
    · rcases List.mem_cons.mp hc' with hceq' | hct'
      · rw [hceq', hceq]
      · exfalso
        subst hceq
        have hx := hrel c' hct'
        simp only [Chunk.chunk_end, Chunk.data_start, header_size] at h1 h2 h3 h4 hx
        omega
    · rcases List.mem_cons.mp hc' with hceq' | hct'
      · exfalso
        subst hceq'
        have hx := hrel c hct
        simp only [Chunk.chunk_end, Chunk.data_start, header_size] at h1 h2 h3 h4 hx
        omega
      · exact ih hpt x len c hct c' hct' h1 h2 h3 h4

lemma add_chunk_none (fail : Nat → Bool) (st : PoolState) (bytes : Nat)
    (h : add_chunk fail st bytes = none) : fail st.hostIdx = true := by
  unfold add_chunk at h
  by_cases hf : fail st.hostIdx = true
  · exact hf
  · simp only [Bool.not_eq_true] at hf
    simp [hf] at h

/-- The out-of-memory outcome happens only after the host oracle actually
refused a request. -/
lemma mallocLoop_oom_fail (fail : Nat → Bool) :
    ∀ (fuel : Nat) (st : PoolState) (bytes alignment : Nat),
    mallocLoop fail fuel st bytes alignment = .oom →
    ∃ k, st.hostIdx ≤ k ∧ fail k = true := by
  intro fuel
  induction fuel with
  | zero => intro st bytes alignment h; simp [mallocLoop] at h
  | succ fuel ih =>
    intro st bytes alignment h
    rw [mallocLoop] at h
    rcases hch : st.chunks with _ | ⟨top, rest⟩
    · rw [hch] at h
      rcases hadd : add_chunk fail st bytes with _ | st1
      · exact ⟨st.hostIdx, le_refl _, add_chunk_none fail st bytes hadd⟩
      · rw [hadd] at h
        obtain ⟨-, -, -, -, -, hidx⟩ := add_chunk_chunks fail st bytes st1 hadd
        obtain ⟨k, hk1, hk2⟩ := ih st1 bytes alignment h
        exact ⟨k, by omega, hk2⟩
    · rw [hch] at h
      simp only at h
      by_cases hov : top.chunk_end <
          top.chunk_at + bytes + (if alignment ≠ 1 then realign top.chunk_at alignment else 0)
      · rw [if_pos hov] at h
        rcases hadd : add_chunk fail st bytes with _ | st1
        · exact ⟨st.hostIdx, le_refl _, add_chunk_none fail st bytes hadd⟩
        · rw [hadd] at h
          obtain ⟨-, -, -, -, -, hidx⟩ := add_chunk_chunks fail st bytes st1 hadd
          obtain ⟨k, hk1, hk2⟩ := ih st1 bytes alignment h
          exact ⟨k, by omega, hk2⟩
      · rw [if_neg hov] at h
        exact absurd h (by simp)

lemma initialPool_WF (block_size hostStart : Nat) :
    PoolWF (initialPool block_size hostStart) :=
  ⟨fun c hc => absurd hc (List.not_mem_nil c),
   fun c hc => absurd hc (List.not_mem_nil c),
   List.Pairwise.nil⟩

/-- C4: every successful `allocator_pool::malloc(bytes, alignment)` with
`alignment ≥ 1` (in particular every power of two ≥ 1) returns an address
that is a multiple of `alignment`; the returned region `[addr, addr + bytes)`
lies inside the payload `[data, chunk_end)` of exactly one chunk; and any two
regions of one sequential, non-rewound run are disjoint (each later region
starts at or after the end of every earlier one). -/
theorem C4_malloc_aligned_one_chunk_disjoint :
    ∀ (fail : Nat → Bool) (fuel block_size hostStart : Nat)
      (reqs : List (Nat × Nat)) (st'' : PoolState) (out : List (Nat × Nat)),
    (∀ r ∈ reqs, 1 ≤ r.2) →
    mallocSeq fail fuel (initialPool block_size hostStart) reqs = some (st'', out) →
    (∀ p ∈ out.zip reqs, p.1.1 % p.2.2 = 0 ∧ p.1.2 = p.2.1) ∧
    (∀ r ∈ out, ∃ c ∈ st''.chunks,
        (c.data_start ≤ r.1 ∧ r.1 + r.2 ≤ c.chunk_end) ∧
        ∀ c' ∈ st''.chunks, c'.data_start ≤ r.1 ∧ r.1 + r.2 ≤ c'.chunk_end → c' = c) ∧
    List.Pairwise (fun a b => a.1 + a.2 ≤ b.1 ∨ b.1 + b.2 ≤ a.1) out := by
  intro fail fuel block_size hostStart reqs st'' out halign h
  obtain ⟨hWF, hused, hzip, hreg, -, hpw⟩ :=
    mallocSeq_main fail fuel reqs (initialPool block_size hostStart) [] st'' out
      (initialPool_WF block_size hostStart)
      (fun r hr => absurd hr (List.not_mem_nil r)) h
  obtain ⟨hWF1, hWF2, hWF3⟩ := hWF
  refine ⟨?_, ?_, ?_⟩
  · intro p hp
    obtain ⟨pa, pb⟩ := p
    obtain ⟨hout, hin⟩ := List.of_mem_zip hp
    obtain ⟨ha, hb⟩ := hzip (pa, pb) hp
    exact ⟨ha (halign pb hin), hb⟩
  · intro r hr
    obtain ⟨c, hc, hc1, hc2⟩ := hreg r (by simpa using hr)
    have hcWF := hWF1 c hc
    refine ⟨c, hc, ⟨hc1, by omega⟩, ?_⟩
    intro c' hc' ⟨h1, h2⟩
    exact chunk_unique st''.chunks hWF3 r.1 r.2 c hc c' hc' hc1 (by omega) h1 h2
  · exact hpw.imp (fun hab => Or.inl hab)

/-- C5: after any sequence of successful sequential `malloc` calls on a fresh
pool (no rewind), `size()` (`used`) equals the exact sum of the `bytes`
arguments — alignment padding is consumed from the chunks but never counted. -/
theorem C5_size_sums_requested_bytes :
    ∀ (fail : Nat → Bool) (fuel block_size hostStart : Nat)
      (reqs : List (Nat × Nat)) (st'' : PoolState) (out : List (Nat × Nat)),
    mallocSeq fail fuel (initialPool block_size hostStart) reqs = some (st'', out) →
    PoolState.size st'' = (reqs.map Prod.fst).sum := by
  intro fail fuel block_size hostStart reqs st'' out h
  obtain ⟨-, hused, -, -, -, -⟩ :=
    mallocSeq_main fail fuel reqs (initialPool block_size hostStart) [] st'' out
      (initialPool_WF block_size hostStart)
      (fun r hr => absurd hr (List.not_mem_nil r)) h
  simpa [PoolState.size, initialPool] using hused

/-- C7: `malloc` reaches the out-of-memory outcome (diagnostic + process
termination, modelled by `MRes.oom`) only when the host oracle actually
refused a chunk request; in that case no pointer is returned; and when the
host never refuses, the out-of-memory outcome is impossible — the only other
outcomes are a normal return or still spinning in the retry loop. -/
theorem C7_oom_terminates_never_returns :
    ∀ (fail : Nat → Bool) (fuel : Nat) (st : PoolState) (bytes alignment : Nat),
    (mallocLoop fail fuel st bytes alignment = .oom →
        (∃ k, st.hostIdx ≤ k ∧ fail k = true) ∧
        ∀ (st' : PoolState) (addr : Nat),
          mallocLoop fail fuel st bytes alignment ≠ .ok st' addr) ∧
    ((∀ k, fail k = false) → mallocLoop fail fuel st bytes alignment ≠ .oom) := by
  intro fail fuel st bytes alignment
  constructor
  · intro h
    refine ⟨mallocLoop_oom_fail fail fuel st bytes alignment h, ?_⟩
    intro st' addr
    rw [h]
    simp
  · intro hnone h
    obtain ⟨k, -, hk⟩ := mallocLoop_oom_fail fail fuel st bytes alignment h
    rw [hnone k] at hk
    exact absurd hk (by simp)

/-- Witness for C4: a concrete three-request run (bytes 10 align 1, bytes 20
align 4, bytes 0 align 1) on a fresh pool with `block_size = 100`. -/
theorem C4_witness :
    (∀ r ∈ ([(10, 1), (20, 4), (0, 1)] : List (Nat × Nat)), 1 ≤ r.2) ∧
    ((∀ p ∈ ([(1032, 10), (1044, 20), (1064, 0)] : List (Nat × Nat)).zip
          ([(10, 1), (20, 4), (0, 1)] : List (Nat × Nat)),
        p.1.1 % p.2.2 = 0 ∧ p.1.2 = p.2.1) ∧
     (∀ r ∈ ([(1032, 10), (1044, 20), (1064, 0)] : List (Nat × Nat)),
        ∃ c ∈ (⟨[⟨1000, 132, 1064⟩], 30, 132, 100, 1132, 1⟩ : PoolState).chunks,
          (c.data_start ≤ r.1 ∧ r.1 + r.2 ≤ c.chunk_end) ∧
          ∀ c' ∈ (⟨[⟨1000, 132, 1064⟩], 30, 132, 100, 1132, 1⟩ : PoolState).chunks,
            c'.data_start ≤ r.1 ∧ r.1 + r.2 ≤ c'.chunk_end → c' = c) ∧
     List.Pairwise (fun a b => a.1 + a.2 ≤ b.1 ∨ b.1 + b.2 ≤ a.1)
        ([(1032, 10), (1044, 20), (1064, 0)] : List (Nat × Nat))) :=
  ⟨by decide,
   C4_malloc_aligned_one_chunk_disjoint (fun _ => false) 4 100 1000
     [(10, 1), (20, 4), (0, 1)] ⟨[⟨1000, 132, 1064⟩], 30, 132, 100, 1132, 1⟩
     [(1032, 10), (1044, 20), (1064, 0)] (by decide) (by decide)⟩

/-- Witness for C5: the spec's "arena basic" scenario — three allocations of
100, 200 and 50 bytes; `size()` afterwards is 350. -/
theorem C5_witness :
    mallocSeq (fun _ => false) 4 (initialPool 1000 0)
        [(100, 1), (200, 1), (50, 1)] =
      some (⟨[⟨0, 1032, 382⟩], 350, 1032, 1000, 1032, 1⟩,
        [(32, 100), (132, 200), (332, 50)]) ∧
    PoolState.size (⟨[⟨0, 1032, 382⟩], 350, 1032, 1000, 1032, 1⟩ : PoolState) =
      (([(100, 1), (200, 1), (50, 1)] : List (Nat × Nat)).map Prod.fst).sum :=
  ⟨by decide,
   C5_size_sums_requested_bytes (fun _ => false) 4 1000 0
     [(100, 1), (200, 1), (50, 1)] ⟨[⟨0, 1032, 382⟩], 350, 1032, 1000, 1032, 1⟩
     [(32, 100), (132, 200), (332, 50)] (by decide)⟩

/-- Witness for C7: with a host that refuses everything, the very first
`malloc` on a fresh pool reaches the out-of-memory termination, and the
theorem yields the refusal. -/
theorem C7_witness :
    ∃ k, (initialPool 10 0).hostIdx ≤ k ∧ (fun _ : Nat => true) k = true :=
  ((C7_oom_terminates_never_returns (fun _ => true) 1 (initialPool 10 0) 5 1).1
    (by decide)).1

/-- Chunk sizes present in the pool after a `malloc` outcome (empty unless
the call returned normally). -/
def resultChunkSizes : MRes → List Nat
  | .ok st _ => st.chunks.map Chunk.chunk_size
  | _ => []

/-- C6 counterexample: `malloc(64, 8)` on a fresh pool with
`default_block_size = 64` cannot be satisfied from the (nonexistent) current
chunk, so a chunk is requested from the host; the code requests
`max(64, 64) + header_size = 96` bytes, not the claimed
`max(64, 64 + 8) + header_size = 104`. -/
theorem C6_counterexample_chunk_size :
    resultChunkSizes (mallocLoop (fun _ => false) 3 (initialPool 64 1000) 64 8) = [96] ∧
    ¬(96 = max 64 (64 + 8) + header_size) := by
  constructor
  · decide
  · decide

lemma mallocLoop_nil (fail : Nat → Bool) (fuel : Nat) (st : PoolState)
    (bytes alignment : Nat) (h : st.chunks = []) :
    mallocLoop fail (fuel + 1) st bytes alignment =
      match add_chunk fail st bytes with
      | none => MRes.oom
      | some st1 => mallocLoop fail fuel st1 bytes alignment := by
  rw [mallocLoop, h]

lemma mallocLoop_cons (fail : Nat → Bool) (fuel : Nat) (st : PoolState)
    (bytes alignment : Nat) (top : Chunk) (rest : List Chunk)
    (h : st.chunks = top :: rest) :
    mallocLoop fail (fuel + 1) st bytes alignment =
      if top.chunk_end < top.chunk_at + bytes +
          (if alignment ≠ 1 then realign top.chunk_at alignment else 0) then
        match add_chunk fail st bytes with
        | none => MRes.oom
        | some st1 => mallocLoop fail fuel st1 bytes alignment
      else
        .ok { st with
                chunks := { top with chunk_at := top.chunk_at + bytes +
                  (if alignment ≠ 1 then realign top.chunk_at alignment else 0) } :: rest,
                used := st.used + bytes }
          (top.chunk_at + (if alignment ≠ 1 then realign top.chunk_at alignment else 0)) := by
  rw [mallocLoop, h]

/-- C6 amended: when `malloc(bytes, alignment)` cannot satisfy a request from
the current chunk (or there is no chunk), the new chunk requested from the
host allocator has size `max(default_block_size, bytes) + header_size` (the
code adds no `alignment` term); consequently a request needing no alignment
padding — in particular any request with `alignment = 1` — is satisfiable
from the freshly sized chunk on the very next loop iteration. -/
theorem C6_amended_chunk_size_and_fit :
    ∀ (fail : Nat → Bool) (st : PoolState) (bytes : Nat),
    fail st.hostIdx = false →
    (∀ st1, add_chunk fail st bytes = some st1 →
        ∃ c rest, st1.chunks = c :: rest ∧
          c.chunk_size = max st.block_size bytes + header_size) ∧
    (st.chunks = [] →
        ∃ st', mallocLoop fail 2 st bytes 1 = .ok st' (st.hostNext + header_size)) ∧
    (∀ top rest, st.chunks = top :: rest →
        top.chunk_end < top.chunk_at + bytes →
        ∃ st', mallocLoop fail 2 st bytes 1 = .ok st' (st.hostNext + header_size)) := by
  intro fail st bytes hf
  have hadd : add_chunk fail st bytes =
      some { st with
        chunks := ⟨st.hostNext, max st.block_size bytes + header_size,
          st.hostNext + header_size⟩ :: st.chunks,
        allocated := st.allocated + (max st.block_size bytes + header_size),
        hostNext := st.hostNext + (max st.block_size bytes + header_size),
        hostIdx := st.hostIdx + 1 } := by
    unfold add_chunk
    simp [hf]
  have hfit : ∀ (st1 : PoolState) (c : Chunk) (rest : List Chunk),
      st1.chunks = c :: rest →
      ¬(c.chunk_end < c.chunk_at + bytes + 0) →
      ∃ st2, mallocLoop fail 1 st1 bytes 1 = .ok st2 (c.chunk_at + 0) := by
    intro st1 c rest hch hno
    have hred := mallocLoop_cons fail 0 st1 bytes 1 c rest hch
    rw [show (if (1 : Nat) ≠ 1 then realign c.chunk_at 1 else 0) = 0 from
      if_neg (by simp)] at hred
    rw [if_neg hno] at hred
    exact ⟨_, hred⟩
  have hnofit : ¬((⟨st.hostNext, max st.block_size bytes + header_size,
      st.hostNext + header_size⟩ : Chunk).chunk_end <
      (⟨st.hostNext, max st.block_size bytes + header_size,
      st.hostNext + header_size⟩ : Chunk).chunk_at + bytes + 0) := by
    simp only [Chunk.chunk_end]
    have : bytes ≤ max st.block_size bytes := le_max_right _ _
    omega
  refine ⟨?_, ?_, ?_⟩
  · intro st1 h
    rw [hadd] at h
    obtain rfl := (Option.some.injEq _ _).mp h
    exact ⟨_, _, rfl, rfl⟩
  · intro hch
    rw [mallocLoop_nil fail 1 st bytes 1 hch, hadd]
    exact hfit _ _ st.chunks rfl hnofit
  · intro top rest hch hov
    rw [mallocLoop_cons fail 1 st bytes 1 top rest hch]
    rw [show (if (1 : Nat) ≠ 1 then realign top.chunk_at 1 else 0) = 0 from
      if_neg (by simp)]
    rw [if_pos (by omega), hadd]
    exact hfit _ _ (top :: rest) (by simp [hch]) hnofit

/-- Witness for the amended C6: `malloc(64, 1)` on a fresh pool with
`default_block_size = 64` succeeds at the payload start of the fresh chunk. -/
theorem C6_amended_witness :
    ∃ st', mallocLoop (fun _ => false) 2 (initialPool 64 1000) 64 1 =
      .ok st' ((initialPool 64 1000).hostNext + header_size) :=
  (C6_amended_chunk_size_and_fit (fun _ => false) (initialPool 64 1000) 64
    (by decide)).2.1 (by decide)

/-! ### dynamic_array (src/src/util/dynamic_array.hpp)

Sequential shallow embedding.  A `node` keeps its element count fields and its
backing array (a total function `Nat → α`; slots at or beyond `used` are the
indeterminate values of the C++ `new TYPE[size]` and are never read by a
well-formed iteration).  The `next` pointers of the linked list are
represented by list structure: `closed` are the nodes before the tail in
chain order, `tl` is the node `tail` points to.  The node allocation size
`(size_t)(last->allocated * growth_factor)` involves `double` arithmetic, so
it is abstracted into a function `grow : Nat → Nat` (for the default
`growth_factor = 1.5`, `grow a = ⌊1.5 * a⌋`). -/

structure DNode (α : Type) where
  allocated : Nat
  used : Nat
  data : Nat → α

structure DArr (α : Type) where
  closed : List (DNode α)
  tl : DNode α

/-- The node chain from `head` to `tail`. -/
def dchain {α : Type} (st : DArr α) : List (DNode α) := st.closed ++ [st.tl]

/-- Model of `dynamic_array::dynamic_array(pool, initial_size, growth_factor)`:
`head = tail = new node(pool, initial_size)` with `used = 0`; the fresh
element array is uninitialised (modelled by `default`). -/
def dInit (α : Type) [Inhabited α] (initial_size : Nat) : DArr α :=
  ⟨[], ⟨initial_size, 0, fun _ => default⟩⟩

/-- Model of `dynamic_array::push_back` in a sequential execution, one fuel unit per
iteration of the do/while loop.  `slot = last->used++`; if the slot is in
range the element is stored there; otherwise `used` is clamped back to
`allocated`, a new node of `grow allocated` elements is made the tail
(sequentially the compare-exchange succeeds and `last->next` is set), and
the loop retries. -/
def push_back {α : Type} [Inhabited α] (grow : Nat → Nat) :
    Nat → DArr α → α → Option (DArr α)
  | 0, _, _ => none
  | fuel + 1, st, element =>
    let last := st.tl
    let slot := last.used
    if slot < last.allocated then
      some { st with tl :=
        { last with
          used := slot + 1
          data := fun i => if i = slot then element else last.data i } }
    else
      push_back grow fuel
        ⟨st.closed ++ [{ last with used := last.allocated }],
         ⟨grow last.allocated, 0, fun _ => default⟩⟩ element

/-- A sequence of sequential `push_back` calls. -/
def push_backSeq {α : Type} [Inhabited α] (grow : Nat → Nat) (fuel : Nat) :
    DArr α → List α → Option (DArr α)
  | st, [] => some st
  | st, x :: xs =>
    match push_back grow fuel st x with
    | some st1 => push_backSeq grow fuel st1 xs
    | none => none

/-- The elements stored in the used prefix of a node, in index order. -/
def written {α : Type} (n : DNode α) : List α := (List.range n.used).map n.data

/-- The logical contents of the array: concatenation, in node order, of the
used prefixes. -/
def contents {α : Type} (st : DArr α) : List α :=
  ((dchain st).map written).flatten

/-- State of a `dynamic_array::iterator`: `some (chain, idx)` is an iterator
whose `current_node` heads `chain` and whose `data` pointer is
`current_node->data + idx`; `none` is the `(nullptr, nullptr)` end state. -/
def DIter (α : Type) : Type := Option (List (DNode α) × Nat)

/-- Model of `dynamic_array::begin()`: the end iterator when `head->used == 0`, else
`iterator(head, 0)`. -/
def dbegin {α : Type} (st : DArr α) : DIter α :=
  match dchain st with
  | [] => none
  | n :: rest => if n.used = 0 then none else some (n :: rest, 0)

/-- Model of `dynamic_array::end()`: the `(nullptr, nullptr)` iterator. -/
def dend (α : Type) : DIter α := none

/-- Model of `iterator::operator!=` against `end()`: the two compare different exactly
when this iterator's `data` pointer is non-null. -/
def d_ne_end {α : Type} (it : DIter α) : Bool := it.isSome

/-- Model of `iterator::operator*` (reads `*data`; never called on the end state by
the iteration loop). -/
def dderef {α : Type} [Inhabited α] : List (DNode α) × Nat → α
  | ([], _) => default
  | (n :: _, idx) => n.data idx

/-- Model of `iterator::operator++`: advance `data`; when it reaches
`current_node->data + current_node->used`, move to `next` (or to the end
state). -/
def dnext {α : Type} : List (DNode α) × Nat → DIter α
  | ([], _) => none
  | (n :: rest, idx) =>
    if n.used ≤ idx + 1 then
      match rest with
      | [] => none
      | m :: tail => some (m :: tail, 0)
    else
      some (n :: rest, idx + 1)

/-- The canonical iteration loop
`for (it = begin; it != end; ++it) yield *it`, with fuel bounding the number
of yields. -/
def iterRun {α : Type} [Inhabited α] : Nat → DIter α → List α
  | 0, _ => []
  | _, none => []
  | fuel + 1, some s => dderef s :: iterRun fuel (dnext s)

/-- Sequential invariant of the generic array: nodes behind the tail are full
(`used == allocated`) and nonempty, the tail never overflows, and node
capacities are positive. -/
def DInv {α : Type} (st : DArr α) : Prop :=
  (∀ n ∈ st.closed, n.used = n.allocated ∧ 1 ≤ n.allocated) ∧
  st.tl.used ≤ st.tl.allocated ∧ 1 ≤ st.tl.allocated

lemma written_append {α : Type} (n : DNode α) (x : α) :
    written { n with
        used := n.used + 1
        data := fun i => if i = n.used then x else n.data i } =
      written n ++ [x] := by
  unfold written
  simp only [List.range_succ, List.map_append, List.map_cons, List.map_nil]
  have h1 : List.map (fun i => if i = n.used then x else n.data i)
      (List.range n.used) = List.map n.data (List.range n.used) :=
    List.map_congr_left (fun i hi => by
      have : i < n.used := List.mem_range.mp hi
      simp [Nat.ne_of_lt this])
  rw [h1]
  simp

lemma push_back_spec {α : Type} [Inhabited α] (grow : Nat → Nat)
    (hg : ∀ a, 1 ≤ a → 1 ≤ grow a) :
    ∀ (fuel : Nat) (st : DArr α) (x : α) (st' : DArr α),
    DInv st → push_back grow fuel st x = some st' →
    DInv st' ∧ contents st' = contents st ++ [x] ∧ 1 ≤ st'.tl.used := by
  intro fuel
  induction fuel with
  | zero => intro st x st' _ h; simp [push_back] at h
  | succ fuel ih =>
    intro st x st' hInv h
    rw [push_back] at h
    by_cases hfits : st.tl.used < st.tl.allocated
    · rw [if_pos hfits] at h
      obtain rfl := (Option.some.injEq _ _).mp h
      obtain ⟨hcl, hle, hpos⟩ := hInv
      refine ⟨⟨hcl, by simp; omega, by simpa using hpos⟩, ?_, by simp⟩
      simp only [contents, dchain, List.map_append, List.map_cons, List.map_nil,
        List.flatten_append]
      rw [written_append]
      simp
    · rw [if_neg hfits] at h
      obtain ⟨hcl, hle, hpos⟩ := hInv
      have hused : st.tl.used = st.tl.allocated := by omega
      have hInv1 : DInv (α := α)
          ⟨st.closed ++ [{ st.tl with used := st.tl.allocated }],
           ⟨grow st.tl.allocated, 0, fun _ => default⟩⟩ := by
        refine ⟨?_, by simp, by simpa using hg _ hpos⟩
        intro n hn
        rcases List.mem_append.mp hn with hn | hn
        · exact hcl n hn
        · obtain rfl := List.mem_singleton.mp hn
          exact ⟨rfl, hpos⟩
      obtain ⟨hInv', hcont', hpos'⟩ := ih _ x st' hInv1 h
      refine ⟨hInv', ?_, hpos'⟩
      rw [hcont']
      congr 1
      simp only [contents, dchain, List.map_append, List.map_cons, List.map_nil,
        List.flatten_append, List.append_assoc]
      congr 2
      simp only [written, hused]
      simp [written]

lemma push_backSeq_spec {α : Type} [Inhabited α] (grow : Nat → Nat)
    (hg : ∀ a, 1 ≤ a → 1 ≤ grow a) (fuel : Nat) :
    ∀ (xs : List α) (st st' : DArr α),
    DInv st → push_backSeq grow fuel st xs = some st' →
    DInv st' ∧ contents st' = contents st ++ xs ∧
      (xs = [] → st' = st) ∧ (xs ≠ [] → 1 ≤ st'.tl.used) := by
  intro xs
  induction xs with
  | nil =>
    intro st st' hInv h
    obtain rfl := (Option.some.injEq _ _).mp h
    exact ⟨hInv, by simp, fun _ => rfl, fun hne => absurd rfl hne⟩
  | cons x xs ih =>
    intro st st' hInv h
    rw [push_backSeq] at h
    rcases hp : push_back grow fuel st x with _ | st1
    · rw [hp] at h; simp at h
    rw [hp] at h
    obtain ⟨hInv1, hcont1, hpos1⟩ := push_back_spec grow hg fuel st x st1 hInv hp
    obtain ⟨hInv', hcont', hnil', hpos'⟩ := ih st1 st' hInv1 h
    refine ⟨hInv', by rw [hcont', hcont1]; simp, by simp, fun _ => ?_⟩
    rcases hxs : xs with _ | ⟨y, ys⟩
    · rw [hxs] at hnil'
      rw [hnil' rfl]
      exact hpos1
    · exact hpos' (by simp [hxs])

lemma written_drop {α : Type} (n : DNode α) (idx : Nat) (h : idx < n.used) :
    (written n).drop idx = n.data idx :: (written n).drop (idx + 1) := by
  unfold written
  rw [List.drop_eq_getElem_cons (by simpa using h)]
  simp

lemma iterRun_succ_some {α : Type} [Inhabited α] (fuel : Nat)
    (s : List (DNode α) × Nat) :
    iterRun (fuel + 1) (some s) = dderef s :: iterRun fuel (dnext s) := rfl

lemma iterRun_none {α : Type} [Inhabited α] :
    ∀ (fuel : Nat), iterRun (α := α) fuel none = []
  | 0 => rfl
  | _ + 1 => rfl

/-- Running the iteration loop from position `idx` of the node heading a
chain whose nodes all have nonempty used prefixes yields the remaining used
elements, in chain order. -/
lemma iterRun_node {α : Type} [Inhabited α] :
    ∀ (fuel : Nat) (n : DNode α) (rest : List (DNode α)) (idx : Nat),
    idx < n.used → (∀ m ∈ rest, 1 ≤ m.used) →
    n.used - idx + (rest.map (fun m => m.used)).sum ≤ fuel →
    iterRun fuel (some (n :: rest, idx)) =
      (written n).drop idx ++ (rest.map written).flatten := by
  intro fuel
  induction fuel with
  | zero => intro n rest idx h1 h2 h3; omega
  | succ fuel ih =>
    intro n rest idx h1 h2 h3
    rw [iterRun_succ_some]
    have hd : dderef (α := α) (n :: rest, idx) = n.data idx := rfl
    by_cases hstay : n.used ≤ idx + 1
    · have hdrop : (written n).drop (idx + 1) = [] := by
        apply List.drop_eq_nil_of_le
        simpa [written] using hstay
      cases rest with
      | nil =>
        have hn : dnext (α := α) ([n], idx) = none := by simp [dnext, hstay]
        rw [hd, hn, iterRun_none, written_drop n idx h1, hdrop]
        simp
      | cons m tail =>
        have hn : dnext (α := α) (n :: m :: tail, idx) = some (m :: tail, 0) := by
          simp [dnext, hstay]
        have hm : 1 ≤ m.used := h2 m (List.mem_cons_self _ _)
        have hbound : m.used - 0 + (tail.map (fun m => m.used)).sum ≤ fuel := by
          simp only [List.map_cons, List.sum_cons] at h3
          omega
        rw [hd, hn,
          ih m tail 0 (by omega) (fun q hq => h2 q (List.mem_cons_of_mem _ hq)) hbound,
          written_drop n idx h1, hdrop]
        simp
    · have hn : dnext (α := α) (n :: rest, idx) = some (n :: rest, idx + 1) := by
        simp [dnext, hstay]
      rw [hd, hn, ih n rest (idx + 1) (by omega) h2 (by omega),
        written_drop n idx h1]
      simp

lemma contents_length {α : Type} (st : DArr α) :
    (contents st).length = ((dchain st).map (fun n => n.used)).sum := by
  simp only [contents, List.length_flatten, List.map_map]
  congr 1
  exact List.map_congr_left (fun n _ => by simp [written])

/-- C3: appending any finite sequence of elements with `push_back` (each call
completing, sequential execution) and then iterating from `begin()` to
`end()` yields exactly those elements, in append order, each exactly once.
`grow` abstracts `(size_t)(allocated * growth_factor)` and is assumed to keep
capacities positive, as the real growth factors ≥ 1 do; `init ≥ 1` is the
constructor's `initial_size` (default 1). -/
theorem C3_iteration_yields_appended :
    ∀ (α : Type) [Inhabited α] (grow : Nat → Nat) (fuel init ifuel : Nat)
      (xs out : List α),
    (∀ a, 1 ≤ a → 1 ≤ grow a) → 1 ≤ init → xs.length ≤ ifuel →
    (push_backSeq grow fuel (dInit α init) xs).map
        (fun st => iterRun ifuel (dbegin st)) = some out →
    out = xs := by
  intro α inst grow fuel init ifuel xs out hg hinit hfuel h
  rcases hseq : push_backSeq grow fuel (dInit α init) xs with _ | st'
  · rw [hseq] at h; simp at h
  rw [hseq] at h
  simp only [Option.map_some', Option.some.injEq] at h
  have hInv0 : DInv (dInit α init) :=
    ⟨fun n hn => absurd hn (List.not_mem_nil n), by simp [dInit],
     by simpa [dInit] using hinit⟩
  obtain ⟨hInv, hcont, hnil, hpos⟩ :=
    push_backSeq_spec grow hg fuel xs (dInit α init) st' hInv0 hseq
  have hcontents : contents st' = xs := by
    rw [hcont]
    simp [contents, dchain, dInit, written]
  rcases hxs : xs with _ | ⟨y, ys⟩
  · rw [hxs] at hnil
    rw [hnil rfl] at h
    rw [← h]
    have : dbegin (dInit α init) = none := by
      simp [dbegin, dchain, dInit]
    rw [this, iterRun_none]
  · have hne : xs ≠ [] := by simp [hxs]
    rw [← hxs] at *
    have htl : 1 ≤ st'.tl.used := hpos hne
    obtain ⟨hcl, -, -⟩ := hInv
    have hsum : ((dchain st').map (fun n => n.used)).sum = xs.length := by
      rw [← contents_length, hcontents]
    rcases hc : st'.closed with _ | ⟨c, cs⟩
    · have hchain : dchain st' = [st'.tl] := by simp [dchain, hc]
      have hbeg : dbegin st' = some ([st'.tl], 0) := by
        simp only [dbegin, hchain]
        rw [if_neg (by omega)]
      rw [← h, hbeg]
      rw [iterRun_node ifuel st'.tl [] 0 (by omega)
        (fun m hm => absurd hm (List.not_mem_nil m))
        (by rw [hchain] at hsum; simp at hsum ⊢; omega)]
      rw [← hcontents]
      simp [contents, hchain]
    · have hchain : dchain st' = c :: (cs ++ [st'.tl]) := by simp [dchain, hc]
      have hcused : 1 ≤ c.used := by
        have := hcl c (by rw [hc]; exact List.mem_cons_self _ _)
        omega
      have hbeg : dbegin st' = some (c :: (cs ++ [st'.tl]), 0) := by
        simp only [dbegin, hchain]
        rw [if_neg (by omega)]
      have hrest : ∀ m ∈ cs ++ [st'.tl], 1 ≤ m.used := by
        intro m hm
        rcases List.mem_append.mp hm with hm | hm
        · have := hcl m (by rw [hc]; exact List.mem_cons_of_mem _ hm)
          omega
        · obtain rfl := List.mem_singleton.mp hm
          exact htl
      rw [← h, hbeg]
      rw [iterRun_node ifuel c (cs ++ [st'.tl]) 0 (by omega) hrest
        (by rw [hchain] at hsum; simp only [List.map_cons, List.sum_cons] at hsum; omega)]
      rw [← hcontents]
      simp [contents, hchain]

/-- Witness for C3: appending `10, 20, 30` to a fresh `dynamic_array<Nat>`
with `initial_size = 1` and then iterating yields `[10, 20, 30]`. -/
theorem C3_witness :
    ([10, 20, 30] : List Nat) = [10, 20, 30] :=
  C3_iteration_yields_appended Nat (fun a => a) 4 1 3 [10, 20, 30] [10, 20, 30]
    (fun a ha => ha) (by decide) (by decide) (by decide)

lemma push_back_le {α : Type} [Inhabited α] (grow : Nat → Nat) :
    ∀ (fuel : Nat) (st : DArr α) (x : α) (st' : DArr α),
    (∀ n ∈ dchain st, n.used ≤ n.allocated) →
    push_back grow fuel st x = some st' →
    ∀ n ∈ dchain st', n.used ≤ n.allocated := by
  intro fuel
  induction fuel with
  | zero => intro st x st' _ h; simp [push_back] at h
  | succ fuel ih =>
    intro st x st' hle h
    rw [push_back] at h
    by_cases hfits : st.tl.used < st.tl.allocated
    · rw [if_pos hfits] at h
      obtain rfl := (Option.some.injEq _ _).mp h
      intro n hn
      simp only [dchain] at hn
      rcases List.mem_append.mp hn with hn | hn
      · exact hle n (by simp [dchain]; exact Or.inl hn)
      · obtain rfl := List.mem_singleton.mp hn
        simp only
        omega
    · rw [if_neg hfits] at h
      refine ih _ x st' ?_ h
      intro n hn
      simp only [dchain, List.append_assoc] at hn
      rcases List.mem_append.mp hn with hn | hn
      · exact hle n (by simp [dchain]; exact Or.inl hn)
      · rcases List.mem_cons.mp hn with rfl | hn
        · simp
        · obtain rfl := List.mem_singleton.mp hn
          simp

lemma push_backSeq_le {α : Type} [Inhabited α] (grow : Nat → Nat) (fuel : Nat) :
    ∀ (xs : List α) (st st' : DArr α),
    (∀ n ∈ dchain st, n.used ≤ n.allocated) →
    push_backSeq grow fuel st xs = some st' →
    ∀ n ∈ dchain st', n.used ≤ n.allocated := by
  intro xs
  induction xs with
  | nil =>
    intro st st' hle h
    obtain rfl := (Option.some.injEq _ _).mp h
    exact hle
  | cons x xs ih =>
    intro st st' hle h
    rw [push_backSeq] at h
    rcases hp : push_back grow fuel st x with _ | st1
    · rw [hp] at h; simp at h
    rw [hp] at h
    exact ih st1 st' (push_back_le grow fuel st x st1 hle hp) h

/-- C8: in a sequential execution, after every completed `push_back` (that
is, in every state with no `push_back` mid-flight) every node of the generic
array satisfies `used ≤ allocated`; the overflow path clamps `used` back to
`allocated` before the node is left behind. -/
theorem C8_used_le_capacity :
    ∀ (α : Type) [Inhabited α] (grow : Nat → Nat) (fuel init : Nat)
      (xs : List α) (l : List (Nat × Nat)),
    (push_backSeq grow fuel (dInit α init) xs).map
        (fun st => (dchain st).map (fun n => (n.used, n.allocated))) = some l →
    ∀ p ∈ l, p.1 ≤ p.2 := by
  intro α inst grow fuel init xs l h p hp
  rcases hseq : push_backSeq grow fuel (dInit α init) xs with _ | st'
  · rw [hseq] at h; simp at h
  rw [hseq] at h
  simp only [Option.map_some', Option.some.injEq] at h
  subst h
  obtain ⟨n, hn, rfl⟩ := List.mem_map.mp hp
  refine push_backSeq_le grow fuel xs (dInit α init) st' ?_ hseq n hn
  intro m hm
  simp only [dchain, dInit, List.nil_append, List.mem_singleton] at hm
  subst hm
  simp

/-- Witness for C8: pushing `10, 20, 30` through a unit-capacity array
leaves three nodes with `(used, allocated) = (1, 1)`; the invariant holds at
the first of them. -/
theorem C8_witness :
    ((1, 1) : Nat × Nat).1 ≤ ((1, 1) : Nat × Nat).2 :=
  C8_used_le_capacity Nat (fun a => a) 4 1 [10, 20, 30] [(1, 1), (1, 1), (1, 1)]
    (by decide) (1, 1) (by decide)

/-! ### compressed_dynamic_array (src/efficient/util/compressed_dynamic_array.hpp)

Sequential shallow embedding, same conventions as for `dynamic_array`.
Bytes are `Nat` values < 256 (all bytes the writer stores are < 256 by
construction).  `element` is a `uint32_t`, so theorems carry the hypothesis
`v < 2^32` where it matters.  In the fullness test
`7 < last->allocated - last->used` the `size_t` subtraction cannot wrap
because `used ≤ allocated` holds in every reachable sequential state (claim
C9 below); under that invariant the `Nat` truncated subtraction used here
agrees with the C++ `size_t` subtraction. -/

structure CNode where
  allocated : Nat
  used : Nat
  data : Nat → Nat

structure CArr where
  closed : List CNode
  tl : CNode

/-- The node chain from `head` to `tail`. -/
def cchain (st : CArr) : List CNode := st.closed ++ [st.tl]

/-- Model of `compressed_dynamic_array::compressed_dynamic_array(pool, initial_size,
growth_factor)`. -/
def cInit (initial_size : Nat) : CArr :=
  ⟨[], ⟨initial_size, 0, fun _ => 0⟩⟩

/-- One store `last->data[last->used++] = b`. -/
def writeByte (n : CNode) (b : Nat) : CNode :=
  { n with used := n.used + 1, data := fun i => if i = n.used then b else n.data i }

/-- The writer loop of `push_back`, with a structural iteration bound (the
loop runs at most once per seven bits, and `val` itself always bounds that):
`while ((val & ~0x7F) != 0) { data[used++] = (val & 0x7f) | 0x80;
val >>= 7; } data[used++] = (uint8_t)val`.  For `val < 2^32` (a `uint32_t`),
`(val & ~0x7F) != 0` is exactly `128 ≤ val`; `val & 0x7f` is `val % 128`,
setting the high bit adds 128, and `val >>= 7` is `val / 128`. -/
def write_loopGo : CNode → Nat → Nat → CNode
  | n, val, 0 => writeByte n val
  | n, val, fuel + 1 =>
    if val < 128 then writeByte n val
    else write_loopGo (writeByte n (val % 128 + 128)) (val / 128) fuel

/-- The writer loop at its canonical (always sufficient) bound. -/
def write_loop (n : CNode) (val : Nat) : CNode := write_loopGo n val val

/-- The byte string the writer loop emits for a value: low seven bits first,
high (continuation) bit set on every byte but the last; same structural
bound as `write_loopGo`. -/
def vbytesGo : Nat → Nat → List Nat
  | val, 0 => [val]
  | val, fuel + 1 =>
    if val < 128 then [val]
    else (val % 128 + 128) :: vbytesGo (val / 128) fuel

/-- The emitted byte string at the canonical bound. -/
def vbytes (val : Nat) : List Nat := vbytesGo val val

lemma vbytesGo_congr : ∀ (v f g : Nat), v ≤ f → v ≤ g →
    vbytesGo v f = vbytesGo v g := by
  intro v
  induction v using Nat.strong_induction_on with
  | _ v ih =>
    intro f g hf hg
    by_cases hv : v < 128
    · cases f <;> cases g <;> simp [vbytesGo, hv]
    · have hv1 : 1 ≤ v := by omega
      rcases f with _ | f1
      · omega
      rcases g with _ | g1
      · omega
      have hdiv : v / 128 < v := Nat.div_lt_self (by omega) (by omega)
      simp only [vbytesGo, if_neg hv]
      rw [ih (v / 128) hdiv f1 (v / 128) (by omega) (le_refl _),
        ih (v / 128) hdiv g1 (v / 128) (by omega) (le_refl _)]

/-- The loop equation of the byte writer. -/
lemma vbytes_eq (v : Nat) :
    vbytes v = if v < 128 then [v] else (v % 128 + 128) :: vbytes (v / 128) := by
  unfold vbytes
  by_cases hv : v < 128
  · cases v <;> simp [vbytesGo, hv]
  · have : ∃ k, v = k + 1 := ⟨v - 1, by omega⟩
    obtain ⟨k, rfl⟩ := this
    simp only [vbytesGo, if_neg hv]
    rw [vbytesGo_congr ((k + 1) / 128) k ((k + 1) / 128)
      (by omega) (le_refl _)]

/-- Writing a list of bytes one `data[used++] = b` at a time. -/
def writeBytes (n : CNode) (bs : List Nat) : CNode := bs.foldl writeByte n

/-- Model of `compressed_dynamic_array::push_back(element)` in a sequential execution,
one fuel unit per iteration of the do/while loop: if the tail has more than
7 free bytes the varint is written in place, otherwise a new tail of
`grow allocated` bytes is installed (sequentially the compare-exchange
succeeds) and the loop retries. -/
def cpush (grow : Nat → Nat) : Nat → CArr → Nat → Option CArr
  | 0, _, _ => none
  | fuel + 1, st, element =>
    let last := st.tl
    if 7 < last.allocated - last.used then
      some { st with tl := write_loop last element }
    else
      cpush grow fuel
        ⟨st.closed ++ [last], ⟨grow last.allocated, 0, fun _ => 0⟩⟩ element

/-- A sequence of sequential `push_back` calls. -/
def cpushSeq (grow : Nat → Nat) (fuel : Nat) : CArr → List Nat → Option CArr
  | st, [] => some st
  | st, v :: vs =>
    match cpush grow fuel st v with
    | some st1 => cpushSeq grow fuel st1 vs
    | none => none

/-- The bytes stored in the used prefix of a node, in index order. -/
def cwritten (n : CNode) : List Nat := (List.range n.used).map n.data

/-- The inner loop of `iterator::read_word` after the first byte: `b` is the
byte last consumed, `i` the value accumulated so far, `shift` the bit
position of the next payload.  `(b & 0x80) != 0` is `128 ≤ b % 256`;
`i |= (b & 0x7FL) << shift` on a `uint32_t` truncates modulo `2^32`.
Returns the accumulated value and the number of further bytes consumed;
reading past the end of the byte list (heap garbage in C++) stops. -/
def read_word_go : Nat → Nat → Nat → List Nat → Nat × Nat
  | _, i, _, [] => (i, 0)
  | b, i, shift, b1 :: rest1 =>
    if b % 256 < 128 then (i, 0)
    else
      let i1 := (i ||| (b1 % 128) <<< shift) % 2 ^ 32
      let r := read_word_go b1 i1 (shift + 7) rest1
      (r.1, r.2 + 1)

/-- Model of `iterator::read_word`: `b = *data++; i = b & 0x7F;
for (shift = 7; (b & 0x80) != 0; shift += 7) { b = *data++;
i |= (b & 0x7FL) << shift; } return i;`.  Returns the decoded value and the
number of bytes consumed. -/
def read_word : List Nat → Nat × Nat
  | [] => (0, 0)
  | b :: rest =>
    let r := read_word_go b (b % 128) 7 rest
    (r.1, r.2 + 1)

/-- State of a `compressed_dynamic_array::iterator`: `chain` is
`current_node` and its successors (`[]` when `current_node == nullptr`),
`element` the currently decoded element, and `data` the byte pointer —
`none` for `nullptr`, `some off` for `current_node->data + off`. -/
structure CIter where
  chain : List CNode
  element : Nat
  data : Option Nat

/-- Model of `compressed_dynamic_array::end()`: `iterator(nullptr)`. -/
def citer_end : CIter := ⟨[], 0, none⟩

/-- Model of `compressed_dynamic_array::begin()`: `end()` when `head->used == 0`,
else `iterator(head)` — whose constructor initialises `current_node = head`,
`element = 0` and `data = nullptr` (the constructor never points `data` at
the node's bytes). -/
def citer_begin (st : CArr) : CIter :=
  match cchain st with
  | [] => citer_end
  | n :: rest => if n.used = 0 then citer_end else ⟨n :: rest, 0, none⟩

/-- Model of `iterator::operator!=` compares only the `data` byte pointers; against
`end()` (null `data`) the iterators differ exactly when `data` is
non-null. -/
def c_ne_end (it : CIter) : Bool := it.data.isSome

/-- All bytes of a node's backing array (length `allocated`). -/
def cnodeArray (n : CNode) : List Nat := (List.range n.allocated).map n.data

/-- Model of `iterator::operator++`: `element = read_word();` then if `data` reached
`current_node->data + current_node->used`, move to the next node (or to the
end state).  With `data == nullptr` (the state `begin()` produces) the C++
would dereference a null pointer; the iteration loop never reaches that
because such an iterator already compares equal to `end()`. -/
def citer_next (it : CIter) : CIter :=
  match it.data, it.chain with
  | some off, n :: rest =>
    let r := read_word ((cnodeArray n).drop off)
    let off1 := off + r.2
    if n.used ≤ off1 then
      match rest with
      | [] => ⟨[], r.1, none⟩
      | m :: tail => ⟨m :: tail, r.1, some 0⟩
    else ⟨n :: rest, r.1, some off1⟩
  | _, _ => it

/-- The iteration loop `for (it = begin; it != end; ++it) yield *it` over the
compressed sequence, with fuel bounding the number of yields. -/
def citerRun : Nat → CIter → List Nat
  | 0, _ => []
  | fuel + 1, it =>
    if c_ne_end it then it.element :: citerRun fuel (citer_next it) else []

lemma lor_shift_add (i x n : Nat) (hi : i < 2 ^ n) :
    i ||| x <<< n = i + x * 2 ^ n := by
  rw [Nat.shiftLeft_eq, Nat.lor_comm, Nat.mul_comm x (2 ^ n),
    ← Nat.mul_add_lt_is_or hi x]
  omega

lemma two_pow_shift7 (shift : Nat) : 2 ^ (shift + 7) = 2 ^ shift * 128 := by
  rw [pow_add]
  norm_num

lemma read_word_go_stop (b i shift : Nat) (rest : List Nat)
    (hb : b % 256 < 128) : read_word_go b i shift rest = (i, 0) := by
  cases rest with
  | nil => rfl
  | cons b1 rest1 => rw [read_word_go, if_pos hb]

lemma read_word_go_cons (b i shift b1 : Nat) (rest1 : List Nat)
    (hb : 128 ≤ b % 256) :
    read_word_go b i shift (b1 :: rest1) =
      ((read_word_go b1 ((i ||| (b1 % 128) <<< shift) % 2 ^ 32) (shift + 7) rest1).1,
       (read_word_go b1 ((i ||| (b1 % 128) <<< shift) % 2 ^ 32) (shift + 7) rest1).2 + 1) := by
  rw [read_word_go, if_neg (by omega)]

/-- Decoding the writer's byte string for `v`, arriving with accumulator `i`,
shift position `shift`, and a previously consumed byte with the continuation
bit set, yields `i + v * 2 ^ shift` and consumes exactly the string. -/
lemma read_word_go_vbytes :
    ∀ (v b i shift : Nat) (rest : List Nat),
    128 ≤ b % 256 → i < 2 ^ shift → i + v * 2 ^ shift < 2 ^ 32 →
    read_word_go b i shift (vbytes v ++ rest) =
      (i + v * 2 ^ shift, (vbytes v).length) := by
  intro v
  induction v using Nat.strong_induction_on with
  | _ v ih =>
    intro b i shift rest hb hi hbound
    by_cases hv : v < 128
    · rw [vbytes_eq, if_pos hv]
      simp only [List.cons_append, List.nil_append, List.length_cons,
        List.length_nil]
      rw [read_word_go_cons b i shift v rest hb]
      have hmod : v % 128 = v := Nat.mod_eq_of_lt hv
      have hlor : i ||| (v % 128) <<< shift = i + v * 2 ^ shift := by
        rw [hmod]; exact lor_shift_add i v shift hi
      rw [hlor, Nat.mod_eq_of_lt hbound,
        read_word_go_stop v _ _ rest (by omega)]
    · rw [vbytes_eq, if_neg hv]
      simp only [List.cons_append, List.length_cons]
      rw [read_word_go_cons b i shift (v % 128 + 128) (vbytes (v / 128) ++ rest) hb]
      have h128 : v % 128 < 128 := Nat.mod_lt _ (by omega)
      have hmod : (v % 128 + 128) % 128 = v % 128 := by omega
      have hmul_le : v % 128 * 2 ^ shift ≤ v * 2 ^ shift :=
        Nat.mul_le_mul_right _ (Nat.mod_le _ _)
      have hlor : i ||| ((v % 128 + 128) % 128) <<< shift = i + v % 128 * 2 ^ shift := by
        rw [hmod]; exact lor_shift_add i (v % 128) shift hi
      have hi1bound : i + v % 128 * 2 ^ shift < 2 ^ 32 := by omega
      have hdm := Nat.div_add_mod v 128
      have hi1lt : i + v % 128 * 2 ^ shift < 2 ^ (shift + 7) := by
        rw [two_pow_shift7]
        have : v % 128 * 2 ^ shift ≤ 127 * 2 ^ shift :=
          Nat.mul_le_mul_right _ (by omega)
        have h2 : 2 ^ shift * 128 = 2 ^ shift + 127 * 2 ^ shift := by ring
        omega
      have hrebound : i + v % 128 * 2 ^ shift + v / 128 * 2 ^ (shift + 7) =
          i + v * 2 ^ shift := by
        rw [two_pow_shift7]
        calc i + v % 128 * 2 ^ shift + v / 128 * (2 ^ shift * 128)
            = i + (128 * (v / 128) + v % 128) * 2 ^ shift := by ring
          _ = i + v * 2 ^ shift := by rw [hdm]
      rw [hlor, Nat.mod_eq_of_lt hi1bound]
      rw [ih (v / 128) (Nat.div_lt_self (by omega) (by omega))
        (v % 128 + 128) (i + v % 128 * 2 ^ shift) (shift + 7) rest
        (by omega) hi1lt (by omega)]
      rw [hrebound]

/-- Round trip of the varint writer and `read_word` for any `uint32_t`
value. -/
lemma read_word_vbytes (v : Nat) (hv : v < 2 ^ 32) :
    read_word (vbytes v) = (v, (vbytes v).length) := by
  by_cases h : v < 128
  · rw [vbytes_eq, if_pos h, read_word]
    rw [read_word_go_stop v _ _ [] (by omega)]
    simp [Nat.mod_eq_of_lt h]
  · have h128 : v % 128 < 128 := Nat.mod_lt _ (by omega)
    have hdm := Nat.div_add_mod v 128
    have hval : v % 128 + v / 128 * 2 ^ 7 = v := by
      simp only [show (2 : Nat) ^ 7 = 128 by norm_num]
      omega
    conv_lhs => rw [vbytes_eq, if_neg h]
    rw [read_word]
    have hspec := read_word_go_vbytes (v / 128) (v % 128 + 128) (v % 128) 7 []
      (by omega) (by norm_num; omega) (by omega)
    rw [List.append_nil] at hspec
    have hmod : (v % 128 + 128) % 128 = v % 128 := by omega
    rw [hmod, hspec, hval]
    conv_rhs => rw [vbytes_eq, if_neg h]
    simp

lemma size_div_128 (v : Nat) (h : 128 ≤ v) :
    Nat.size (v / 128) = Nat.size v - 7 := by
  have hs : 8 ≤ Nat.size v := by
    by_contra hlt
    have : v < 2 ^ 7 := by
      have := Nat.size_le.mp (show Nat.size v ≤ 7 by omega)
      simpa using this
    norm_num at this
    omega
  apply Nat.le_antisymm
  · rw [Nat.size_le]
    have hv : v < 2 ^ Nat.size v := Nat.lt_size_self v
    have hpow : 2 ^ Nat.size v = 2 ^ (Nat.size v - 7) * 128 := by
      rw [← two_pow_shift7]
      congr 1
      omega
    rw [Nat.div_lt_iff_lt_mul (by omega)]
    omega
  · have h1 : 2 ^ (Nat.size v - 1) ≤ v := Nat.lt_size.mp (by omega)
    have h2 : 2 ^ (Nat.size v - 1) = 2 ^ (Nat.size v - 8) * 128 := by
      rw [← two_pow_shift7]
      congr 1
      omega
    have h3 : 2 ^ (Nat.size v - 8) ≤ v / 128 := by
      rw [Nat.le_div_iff_mul_le (by omega)]
      omega
    have h4 : Nat.size v - 8 < Nat.size (v / 128) := Nat.lt_size.mpr h3
    omega

/-- The writer emits exactly `⌈bit_width(v) / 7⌉` bytes, minimum one. -/
lemma vbytes_length (v : Nat) :
    (vbytes v).length = max 1 ((Nat.size v + 6) / 7) := by
  induction v using Nat.strong_induction_on with
  | _ v ih =>
    by_cases h : v < 128
    · rw [vbytes_eq, if_pos h]
      have hsz : Nat.size v ≤ 7 := Nat.size_le.mpr (by norm_num; omega)
      have : (Nat.size v + 6) / 7 ≤ 1 := by omega
      simp only [List.length_cons, List.length_nil]
      omega
    · rw [vbytes_eq, if_neg h]
      simp only [List.length_cons]
      rw [ih (v / 128) (Nat.div_lt_self (by omega) (by omega))]
      have hs8 : 8 ≤ Nat.size v := by
        by_contra hlt
        have : v < 2 ^ 7 := by
          have := Nat.size_le.mp (show Nat.size v ≤ 7 by omega)
          simpa using this
        norm_num at this
        omega
      rw [size_div_128 v (by omega)]
      have h1 : 1 ≤ (Nat.size v - 7 + 6) / 7 := by omega
      have h2 : (Nat.size v + 6) / 7 = (Nat.size v - 7 + 6) / 7 + 1 := by omega
      omega

lemma vbytes_length_le (v : Nat) (hv : v < 2 ^ 32) : (vbytes v).length ≤ 5 := by
  rw [vbytes_length]
  have hsz : Nat.size v ≤ 32 := Nat.size_le.mpr (by omega)
  have : (Nat.size v + 6) / 7 ≤ 5 := by omega
  omega

/-- C2: for every `v < 2^32`, encoding with the varint writer and decoding
with `read_word` returns `v` (consuming exactly the encoding); the encoded
length is `⌈bit_width(v)/7⌉` with a minimum of one, hence at most five
bytes; `0` encodes as the single byte `0x00` and `2^32 - 1` as five bytes
ending in `0x0F`. -/
theorem C2_varint_roundtrip_and_length :
    (∀ v : Nat, v < 2 ^ 32 →
      read_word (vbytes v) = (v, (vbytes v).length) ∧
      (vbytes v).length = max 1 ((Nat.size v + 6) / 7) ∧
      (vbytes v).length ≤ 5) ∧
    vbytes 0 = [0] ∧
    vbytes (2 ^ 32 - 1) = [255, 255, 255, 255, 15] := by
  refine ⟨fun v hv => ⟨read_word_vbytes v hv, vbytes_length v, vbytes_length_le v hv⟩,
    ?_, ?_⟩
  · decide
  · decide

/-- Witness for C2 at `v = 300` (a two-byte encoding). -/
theorem C2_witness :
    (300 : Nat) < 2 ^ 32 ∧ read_word (vbytes 300) = (300, (vbytes 300).length) :=
  ⟨by decide, (C2_varint_roundtrip_and_length.1 300 (by decide)).1⟩

lemma cwritten_writeByte (n : CNode) (b : Nat) :
    cwritten (writeByte n b) = cwritten n ++ [b] ∧
    (writeByte n b).used = n.used + 1 ∧
    (writeByte n b).allocated = n.allocated := by
  refine ⟨?_, rfl, rfl⟩
  unfold cwritten writeByte
  simp only [List.range_succ, List.map_append, List.map_cons, List.map_nil]
  have h1 : List.map (fun i => if i = n.used then b else n.data i)
      (List.range n.used) = List.map n.data (List.range n.used) :=
    List.map_congr_left (fun i hi => by
      have : i < n.used := List.mem_range.mp hi
      simp [Nat.ne_of_lt this])
  rw [h1]
  simp

lemma cwritten_writeBytes :
    ∀ (bs : List Nat) (n : CNode),
    cwritten (writeBytes n bs) = cwritten n ++ bs ∧
    (writeBytes n bs).used = n.used + bs.length ∧
    (writeBytes n bs).allocated = n.allocated := by
  intro bs
  induction bs with
  | nil => intro n; simp [writeBytes]
  | cons b bs ih =>
    intro n
    obtain ⟨h1, h2, h3⟩ := ih (writeByte n b)
    obtain ⟨g1, g2, g3⟩ := cwritten_writeByte n b
    refine ⟨?_, ?_, ?_⟩ <;>
      simp only [writeBytes, List.foldl_cons] at *
    · rw [h1, g1]
      simp
    · rw [h2, g2]
      simp [Nat.add_comm, Nat.add_assoc, Nat.add_left_comm]
    · rw [h3, g3]

lemma write_loopGo_eq_writeBytes :
    ∀ (fuel : Nat) (n : CNode) (val : Nat),
    write_loopGo n val fuel = writeBytes n (vbytesGo val fuel) := by
  intro fuel
  induction fuel with
  | zero => intro n val; simp [write_loopGo, vbytesGo, writeBytes]
  | succ fuel ih =>
    intro n val
    by_cases h : val < 128
    · simp [write_loopGo, vbytesGo, h, writeBytes]
    · simp only [write_loopGo, vbytesGo, if_neg h, writeBytes, List.foldl_cons]
      exact ih _ _

/-- The in-place writer of `push_back` appends exactly the value's varint
byte string. -/
lemma write_loop_eq (n : CNode) (val : Nat) :
    write_loop n val = writeBytes n (vbytes val) :=
  write_loopGo_eq_writeBytes val n val

/-- Sequential invariant of the compressed sequence: every node's used
prefix never exceeds its capacity and is a concatenation of complete varint
encodings of 32-bit values. -/
@[reducible] def CInvP (st : CArr) : Prop :=
  ∀ n ∈ cchain st, n.used ≤ n.allocated ∧
    ∃ ws : List Nat, (∀ w ∈ ws, w < 2 ^ 32) ∧ cwritten n = (ws.map vbytes).flatten

lemma cpush_inv (grow : Nat → Nat) :
    ∀ (fuel : Nat) (st : CArr) (v : Nat) (st' : CArr),
    v < 2 ^ 32 → CInvP st → cpush grow fuel st v = some st' → CInvP st' := by
  intro fuel
  induction fuel with
  | zero => intro st v st' _ _ h; simp [cpush] at h
  | succ fuel ih =>
    intro st v st' hv hInv h
    rw [cpush] at h
    by_cases hfits : 7 < st.tl.allocated - st.tl.used
    · rw [if_pos hfits] at h
      obtain rfl := (Option.some.injEq _ _).mp h
      intro n hn
      simp only [cchain, List.mem_append, List.mem_singleton] at hn
      rcases hn with hn | rfl
      · exact hInv n (by simp [cchain]; exact Or.inl hn)
      · obtain ⟨hle, ws, hws, hrep⟩ := hInv st.tl (by simp [cchain])
        rw [write_loop_eq]
        obtain ⟨h1, h2, h3⟩ := cwritten_writeBytes (vbytes v) st.tl
        have hlen : (vbytes v).length ≤ 5 := vbytes_length_le v hv
        refine ⟨by omega, ws ++ [v], ?_, ?_⟩
        · intro w hw
          rcases List.mem_append.mp hw with hw | hw
          · exact hws w hw
          · obtain rfl := List.mem_singleton.mp hw
            exact hv
        · rw [h1, hrep]
          simp
    · rw [if_neg hfits] at h
      refine ih _ v st' hv ?_ h
      intro n hn
      rcases List.mem_append.mp hn with hn1 | hn2
      · exact hInv n hn1
      · obtain rfl := List.mem_singleton.mp hn2
        exact ⟨by simp, [], by simp, by simp [cwritten]⟩

lemma cpushSeq_inv (grow : Nat → Nat) (fuel : Nat) :
    ∀ (vs : List Nat) (st st' : CArr),
    (∀ v ∈ vs, v < 2 ^ 32) → CInvP st →
    cpushSeq grow fuel st vs = some st' → CInvP st' := by
  intro vs
  induction vs with
  | nil =>
    intro st st' _ hInv h
    obtain rfl := (Option.some.injEq _ _).mp h
    exact hInv
  | cons v vs ih =>
    intro st st' hvs hInv h
    rw [cpushSeq] at h
    rcases hp : cpush grow fuel st v with _ | st1
    · rw [hp] at h; simp at h
    rw [hp] at h
    exact ih st1 st' (fun w hw => hvs w (List.mem_cons_of_mem _ hw))
      (cpush_inv grow fuel st v st1 (hvs v (List.mem_cons_self _ _)) hInv hp) h

/-- C9: after every completed sequential `push_back` each node of the
compressed sequence stores a whole number of complete varints (no varint
straddles two nodes — a node is written only when more than 7 bytes are
free, and one encoding takes at most five), and `used ≤ allocated` holds
for every byte node. -/
theorem C9_nodes_hold_complete_varints :
    ∀ (grow : Nat → Nat) (fuel init : Nat) (vs : List Nat)
      (l : List (Nat × Nat × List Nat)),
    (∀ v ∈ vs, v < 2 ^ 32) →
    (cpushSeq grow fuel (cInit init) vs).map
        (fun st => (cchain st).map (fun n => (n.used, n.allocated, cwritten n))) =
      some l →
    ∀ t ∈ l, t.1 ≤ t.2.1 ∧
      ∃ ws : List Nat, (∀ w ∈ ws, w < 2 ^ 32) ∧
        t.2.2 = (ws.map vbytes).flatten := by
  intro grow fuel init vs l hvs h t ht
  rcases hseq : cpushSeq grow fuel (cInit init) vs with _ | st'
  · rw [hseq] at h; simp at h
  rw [hseq] at h
  simp only [Option.map_some', Option.some.injEq] at h
  subst h
  have hInv0 : CInvP (cInit init) := by
    intro n hn
    simp only [cchain, cInit, List.nil_append, List.mem_singleton] at hn
    subst hn
    exact ⟨by simp, [], by simp, by simp [cwritten]⟩
  have hInv := cpushSeq_inv grow fuel vs (cInit init) st' hvs hInv0 hseq
  obtain ⟨n, hn, rfl⟩ := List.mem_map.mp ht
  exact hInv n hn

/-- Witness for C9: appending `0` and `300` to a fresh 16-byte node leaves
one node with three used bytes `[0x00, 0xAC, 0x02]`. -/
theorem C9_witness :
    (3 : Nat) ≤ 16 ∧
    ∃ ws : List Nat, (∀ w ∈ ws, w < 2 ^ 32) ∧
      ([0, 172, 2] : List Nat) = (ws.map vbytes).flatten :=
  C9_nodes_hold_complete_varints (fun a => a) 2 16 [0, 300] [(3, 16, [0, 172, 2])]
    (by decide) (by decide) (3, 16, [0, 172, 2]) (by decide)

/-- C1: the code violates the claim — `push_back(5)` stores the byte `5`
in the tail node, yet the iterator constructor leaves the byte pointer
`data` null, `operator!=` compares only `data`, so `begin()` already equals
`end()` and the canonical loop (compare, dereference, pre-increment) yields
the empty sequence instead of `5`. -/
theorem C1_iteration_always_empty :
    (cpush (fun a => a) 2 (cInit 16) 5).map
        (fun st => (c_ne_end (citer_begin st), citerRun 4 (citer_begin st),
          cwritten st.tl)) =
      some (false, [], [5]) := by
  decide

/-- C10: on a freshly constructed `dynamic_array` or
`compressed_dynamic_array` (head node's `used` is zero), `begin()` equals
`end()`, their `operator!=` returns `false`, and iteration visits no
elements. -/
theorem C10_fresh_begin_eq_end :
    ∀ (α : Type) [Inhabited α] (initd initc ifuel : Nat),
    dbegin (dInit α initd) = dend α ∧
    d_ne_end (dbegin (dInit α initd)) = false ∧
    iterRun ifuel (dbegin (dInit α initd)) = [] ∧
    citer_begin (cInit initc) = citer_end ∧
    c_ne_end (citer_begin (cInit initc)) = false ∧
    citerRun ifuel (citer_begin (cInit initc)) = [] := by
  intro α inst initd initc ifuel
  have hd : dbegin (dInit α initd) = dend α := by
    simp [dbegin, dchain, dInit, dend]
  have hc : citer_begin (cInit initc) = citer_end := by
    simp [citer_begin, cchain, cInit]
  refine ⟨hd, by rw [hd]; rfl, by rw [hd]; exact iterRun_none ifuel, hc,
    by rw [hc]; rfl, by rw [hc]; cases ifuel <;> simp [citerRun, c_ne_end, citer_end]⟩

end Efficient
